import Mathlib

/-!
Verification of the pycortex operator-construction and operator-application
subsystem (`cortex/mapper.py`) against its specification.

The Python/numpy code is shallowly embedded:
* numpy arrays become `List`s; sparse matrices are kept as the lists of
  `(index, value)` triples the code assembles them from;
* vectorized per-vertex computations are modelled for one vertex, since the
  numpy code acts componentwise across vertices;
* float results that are NaN/Inf (division by zero) are modelled as
  `Option.none`, and raising code returns `Except`.
-/

namespace PyCortex

/-! ### Cache artifact (`Mapper._recache` / `Mapper.__init__`) -/

/-- One hemisphere operator in compressed-row form, exactly the four pieces
`Mapper._recache` persists per hemisphere: value array, column-index array,
row-pointer array, and (rows, cols) shape.  Entries are modelled as exact
rationals; `np.savez`/`np.load` stores the float arrays bit-identically. -/
structure Csr where
  data : List ℚ
  indices : List ℕ
  indptr : List ℕ
  shape : ℕ × ℕ
deriving DecidableEq

/-- The `.npz` cache artifact: the eight named arrays written by `np.savez`
in `Mapper._recache`.  The shapes are stored as numeric arrays (length-two
lists), as `np.savez(left_shape=left.shape, ...)` does. -/
structure Artifact where
  left_data : List ℚ
  left_indices : List ℕ
  left_indptr : List ℕ
  left_shape : List ℕ
  right_data : List ℚ
  right_indices : List ℕ
  right_indptr : List ℕ
  right_shape : List ℕ
deriving DecidableEq

/-- `Mapper._recache` (mapper.py lines 125-136): persist both hemisphere
operators into the eight named arrays of the artifact. -/
def saveCache (left right : Csr) : Artifact :=
  { left_data := left.data
    left_indices := left.indices
    left_indptr := left.indptr
    left_shape := [left.shape.1, left.shape.2]
    right_data := right.data
    right_indices := right.indices
    right_indptr := right.indptr
    right_shape := [right.shape.1, right.shape.2] }

/-- Reading `npz['left_shape']` back as the (rows, cols) pair handed to
`sparse.csr_matrix(..., shape=...)`. -/
def decodeShape : List ℕ → Option (ℕ × ℕ)
  | [a, b] => some (a, b)
  | _ => none

/-- `Mapper.__init__` cache-hit path (mapper.py lines 33-36): rebuild each
hemisphere's `csr_matrix` from `(data, indices, indptr)` plus the stored
shape. -/
def loadCache (a : Artifact) : Option (Csr × Csr) := do
  let lshape ← decodeShape a.left_shape
  let rshape ← decodeShape a.right_shape
  some (⟨a.left_data, a.left_indices, a.left_indptr, lshape⟩,
        ⟨a.right_data, a.right_indices, a.right_indptr, rshape⟩)

/-! ### Cache lookup control flow (`Mapper.__init__`) -/

/-- The environment `Mapper.__init__` probes: the result of
`np.load(self.cachefile)` (an `IOError` when the file is missing or fails to
load), and the two file modification times it compares. -/
structure CacheEnv where
  load : Except Unit (Csr × Csr)
  cacheMtime : ℤ
  xfmMtime : ℤ

/-- Whether `__init__` ended up using the cached operators or invoking the
strategy's `_recache` build. -/
inductive InitSource where
  | fromCache (left right : Csr)
  | rebuilt
deriving DecidableEq

/-- `Mapper.__init__` try/except control flow (mapper.py lines 28-40):
`np.load` raising falls into the `except IOError` handler (rebuild); then
`if recache or os.stat(cachefile).st_mtime < os.stat(xfmfile).st_mtime:
raise IOError` also lands in the handler; otherwise the loaded pair is
used as-is. -/
def mapperInit (recache : Bool) (env : CacheEnv) : InitSource :=
  match env.load with
  | .error _ => .rebuilt
  | .ok (l, r) =>
    if recache || decide (env.cacheMtime < env.xfmMtime) then .rebuilt
    else .fromCache l r

/-! ### `Mapper.backwards` -/

/-- `verts.max()`: numpy raises on a zero-size reduction, otherwise returns
the maximum entry. -/
def npMax : List ℕ → Except String ℕ
  | [] => .error "zero-size array to reduction operation maximum"
  | v :: vs => .ok (vs.foldl max v)

/-- `Mapper.backwards`, flat (non-pair) branch (mapper.py lines 108-116):
a sequence of length `nverts` is split as per-vertex data; otherwise, if
`verts.max() < nverts` it is treated as a vertex-index mask
(`left[verts[verts < len(left)]] = True`,
`right[verts[verts >= len(left)] - len(left)] = True`); otherwise
`raise ValueError`. -/
def backwardsFlat (llen rlen : ℕ) (verts : List ℕ) :
    Except String ((List ℕ × List ℕ) ⊕ (List Bool × List Bool)) :=
  if verts.length = llen + rlen then
    .ok (.inl (verts.take llen, verts.drop llen))
  else
    match npMax verts with
    | .error e => .error e
    | .ok m =>
      if m < llen + rlen then
        .ok (.inr
          ((List.range llen).map fun j => verts.any fun v =>
            decide (v < llen) && decide (v = j),
           (List.range rlen).map fun j => verts.any fun v =>
            decide (llen ≤ v) && decide (v - llen = j)))
      else
        .error "ValueError"

/-- Outcome of the paired branch of `Mapper.backwards`. -/
inductive PairOutcome where
  | assigned (left right : List ℕ)
  | masked (left right : List Bool)
  | valueError
  | emptyMaxError
  | indexError
deriving DecidableEq

/-- `Mapper.backwards`, paired branch (mapper.py lines 99-107).  Only
`verts[0]` is inspected by the validation: length against `len(left)`, then
`verts[0].max() < len(left)`.  On the mask path `left[verts[0]] = True`
cannot fail (all entries are below `len(left)` by the max check), while
`right[verts[1]] = True` raises a numpy `IndexError` whenever an entry of
`verts[1]` is out of range — that failure is not the validation branch. -/
def backwardsPair (llen rlen : ℕ) (a b : List ℕ) : PairOutcome :=
  if a.length = llen then .assigned a b
  else
    match npMax a with
    | .error _ => .emptyMaxError
    | .ok m =>
      if m < llen then
        if b.all (fun w => decide (w < rlen)) then
          .masked ((List.range llen).map fun j => a.any fun v => decide (v = j))
                  ((List.range rlen).map fun j => b.any fun v => decide (v = j))
        else .indexError
      else .valueError

/-! ### Grid indexing -/

/-- Row-major linearization of an in-grid `(z, y, x)` triple for grid shape
`(nZ, nY, nX)` — `np.ravel_multi_index(..., self.shape)` with
`self.shape = (nZ, nY, nX)`. -/
def ravel3 (nY nX : ℕ) (t : ℕ × ℕ × ℕ) : ℕ :=
  (t.1 * nY + t.2.1) * nX + t.2.2

/-- `mode='clip'` of `np.ravel_multi_index`: clamp an integer index into
`[0, n-1]` before linearizing. -/
def clipIdx (n : ℕ) (i : ℤ) : ℕ :=
  (max 0 (min i ((n : ℤ) - 1))).toNat

/-- Clipped linearization of a possibly out-of-grid integer triple. -/
def ravelClip (nZ nY nX : ℕ) (z y x : ℤ) : ℕ :=
  ravel3 nY nX (clipIdx nZ z, clipIdx nY y, clipIdx nX x)

/-! ### Trilinear builder (`Trilinear._recache`, mapper.py lines 164-207) -/

/-- The integral part returned by `np.modf` (truncation toward zero). -/
noncomputable def trunc (c : ℝ) : ℤ :=
  if c < 0 then ⌈c⌉ else ⌊c⌋

/-- `x[x < 0] = 0`: the fractional parts are clamped to be nonnegative. -/
noncomputable def clampFrac (t : ℝ) : ℝ :=
  if t < 0 then 0 else t

/-- The 8 `(cornerIndex, weight)` pairs one vertex contributes, in the
`vstack` order of the source (`i000..i111` paired with `v000..v111`):
corner indices are the floor/ceil combinations clipped into the grid, the
weight is the product of `(1-frac)` or `frac` per axis matching that
corner's floor/ceil choice. -/
noncomputable def triCorners (nZ nY nX : ℕ) (cx cy cz : ℝ) : List (ℕ × ℝ) :=
  let fx : ℤ := trunc cx
  let fy : ℤ := trunc cy
  let fz : ℤ := trunc cz
  let x := clampFrac (cx - fx)
  let y := clampFrac (cy - fy)
  let z := clampFrac (cz - fz)
  [(ravelClip nZ nY nX fz fy fx, (1 - x) * (1 - y) * (1 - z)),
   (ravelClip nZ nY nX fz fy (fx + 1), x * (1 - y) * (1 - z)),
   (ravelClip nZ nY nX fz (fy + 1) fx, (1 - x) * y * (1 - z)),
   (ravelClip nZ nY nX (fz + 1) fy fx, (1 - x) * (1 - y) * z),
   (ravelClip nZ nY nX (fz + 1) fy (fx + 1), x * (1 - y) * z),
   (ravelClip nZ nY nX (fz + 1) (fy + 1) fx, (1 - x) * y * z),
   (ravelClip nZ nY nX fz (fy + 1) (fx + 1), x * y * (1 - z)),
   (ravelClip nZ nY nX (fz + 1) (fy + 1) (fx + 1), x * y * z)]

/-- The value a COO-assembled sparse row holds at column `j`:
`sparse.csr_matrix((data, (i, j)))` sums duplicate `(row, column)`
contributions. -/
noncomputable def cooRowVal (ps : List (ℕ × ℝ)) (j : ℕ) : ℝ :=
  ((ps.filter fun p => p.1 == j).map Prod.snd).sum

/-- Total mass of a COO-assembled row over the `N` voxel columns. -/
noncomputable def rowMass (N : ℕ) (ps : List (ℕ × ℝ)) : ℝ :=
  ((List.range N).map (cooRowVal ps)).sum

/-! ### Nearest builder (`Nearest._recache`, mapper.py lines 138-162) -/

/-- `np.round`: round half to even (numpy/IEEE banker's rounding). -/
noncomputable def roundHalfEven (c : ℝ) : ℤ :=
  if c - ⌊c⌋ < 1 / 2 then ⌊c⌋
  else if 1 / 2 < c - ⌊c⌋ then ⌊c⌋ + 1
  else if Even ⌊c⌋ then ⌊c⌋ else ⌊c⌋ + 1

/-- The `(linearIndex, True)` entries one vertex contributes in
`Nearest._recache`: the rounded coordinate is linearized with `mode='clip'`,
but the pair is kept only when the vertex is referenced by the flattened
mesh and the rounded coordinate is in bounds on all three axes
(`valid = referenced ∧ d1 ∧ d2 ∧ d3`). -/
noncomputable def nearestEntries (referenced : Bool) (nZ nY nX : ℕ)
    (cx cy cz : ℝ) : List (ℕ × Bool) :=
  let rx := roundHalfEven cx
  let ry := roundHalfEven cy
  let rz := roundHalfEven cz
  let valid := referenced && decide (0 ≤ rx ∧ rx < (nX : ℤ))
    && decide (0 ≤ ry ∧ ry < (nY : ℤ)) && decide (0 ≤ rz ∧ rz < (nZ : ℤ))
  if valid then [(ravelClip nZ nY nX rz ry rx, true)] else []

/-- The boolean operator row of one vertex, assembled from its entries. -/
noncomputable def nearestRow (referenced : Bool) (nZ nY nX : ℕ)
    (cx cy cz : ℝ) (j : ℕ) : Bool :=
  (nearestEntries referenced nZ nY nX cx cy cz).any fun p => p.1 == j

/-! ### Forward application (`Mapper.__call__`, mapper.py lines 56-63) -/

/-- numpy fancy indexing `xs[..., idx]` on the trailing axis. -/
noncomputable def gather (xs : List ℝ) (idx : List ℕ) : List ℝ :=
  idx.map fun k => xs.getD k 0

/-- The per-vertex pass-through branch of `Mapper.__call__` for 1-D data:
when the data length equals `nverts` the data is split at `llen`
(`masks[0].shape[0]`) with no matrix multiply, and — as the source is
written — when `idxmap` is set BOTH returned slices are indexed with
`self.idxmap[0]` (mapper.py line 62). -/
noncomputable def mapperCallPassthrough (llen rlen : ℕ)
    (idxmap : Option (List ℕ × List ℕ)) (data : List ℝ) :
    Option (List ℝ × List ℝ) :=
  if data.length = llen + rlen then
    let left := data.take llen
    let right := data.drop llen
    match idxmap with
    | some im => some (gather left im.1, gather right im.1)
    | none => some (left, right)
  else none

/-! ### Masks (`Mapper.mask` / `Mapper.hemimasks`, mapper.py lines 42-50) -/

/-- Column `j` sum of an operator stored as a dense list of rows —
`m.sum(0)`. -/
noncomputable def colSum (m : List (List ℝ)) (j : ℕ) : ℝ :=
  (m.map fun row => row.getD j 0).sum

/-- `Mapper.mask`: `(masks[0].sum(0) + masks[1].sum(0)) != 0`, i.e. a voxel
is marked iff the sum of the two hemispheres' column sums is nonzero. -/
noncomputable def maskVec (l r : List (List ℝ)) (nvox : ℕ) : List Bool :=
  (List.range nvox).map fun j => decide (colSum l j + colSum r j ≠ 0)

/-- `Mapper.hemimasks` as written always raises: the lambda reads
`(np.array(m.sum(0)).squeeze != 0).reshape(self.shape)` — `squeeze` is
missing its call parentheses, so the bound method object is compared with
`0` (a constant `True` in Python 2) and `.reshape` is then invoked on a
Python bool, raising `AttributeError`.  No per-hemisphere volume is ever
produced, for any operator pair. -/
def hemimasksRaises (l r : List (List ℝ)) : Except String (List Bool × List Bool) :=
  Except.error "AttributeError: bool object has no attribute reshape"

/-! ### Theorems: claims C7, C8, C9, C10 -/

/-- Claim C9: saving the two hemisphere operators to the cache artifact
(value array, column-index array, row-pointer array and shape per
hemisphere) and loading that artifact back reconstructs sparse matrices
with identical compressed-row arrays and identical shapes. -/
theorem cache_round_trip (left right : Csr) :
    loadCache (saveCache left right) = some (left, right) := rfl

/-- Claim C8: the Mapper rebuilds (falls through to the strategy's
`_recache`) iff the recache flag is set, the cache file is missing or fails
to load, or the cache file is older than the transform definition; when the
load succeeds and neither condition holds, the cached pair is used without
rebuilding. -/
theorem cache_lookup_rebuild_iff (recache : Bool) (env : CacheEnv) :
    (mapperInit recache env = .rebuilt ↔
      (env.load.isOk = false ∨ recache = true ∨ env.cacheMtime < env.xfmMtime)) ∧
    (∀ l r, env.load = .ok (l, r) → recache = false →
      env.xfmMtime ≤ env.cacheMtime → mapperInit recache env = .fromCache l r) := by
  constructor
  · cases hload : env.load with
    | error e => simp [mapperInit, hload, Except.isOk, Except.toBool]
    | ok p =>
      obtain ⟨l, r⟩ := p
      by_cases h : env.cacheMtime < env.xfmMtime
      · cases recache <;> simp [mapperInit, hload, Except.isOk, Except.toBool, h]
      · cases recache <;> simp [mapperInit, hload, Except.isOk, Except.toBool, h]
  · rintro l r hload rfl hle
    simp [mapperInit, hload, decide_eq_false (not_lt.mpr hle)]

/-- Witness for C8: with a loadable cache newer than the transform and
`recache` unset, the cached pair is used. -/
theorem cache_lookup_rebuild_iff_witness :
    mapperInit false ⟨.ok (⟨[], [], [0], (1, 8)⟩, ⟨[], [], [0], (1, 8)⟩), 5, 3⟩ =
      .fromCache ⟨[], [], [0], (1, 8)⟩ ⟨[], [], [0], (1, 8)⟩ :=
  (cache_lookup_rebuild_iff false _).2 _ _ rfl rfl (by decide)

/-- Claim C7: in the flat branch of `backwards`, an index array whose length
differs from `nverts` raises ValueError exactly when its maximum is ≥
`nverts`; with maximum < `nverts` it is treated as a vertex-index mask and
does not raise. -/
theorem backwards_flat_range_check (llen rlen : ℕ) (verts : List ℕ) (m : ℕ)
    (hlen : verts.length ≠ llen + rlen) (hmax : npMax verts = .ok m) :
    (llen + rlen ≤ m → backwardsFlat llen rlen verts = .error "ValueError") ∧
    (m < llen + rlen → ∃ masks, backwardsFlat llen rlen verts = .ok (.inr masks)) := by
  unfold backwardsFlat
  simp only [if_neg hlen, hmax]
  constructor
  · intro hge
    rw [if_neg (not_lt.mpr hge)]
  · intro hlt
    rw [if_pos hlt]
    exact ⟨_, rfl⟩

/-- Witness for C7: `nverts = 5`, index array `[9]` has length 1 ≠ 5 and
maximum 9 ≥ 5, so the flat branch raises ValueError. -/
theorem backwards_flat_range_check_witness :
    backwardsFlat 2 3 [9] = .error "ValueError" :=
  (backwards_flat_range_check 2 3 [9] 9 (by decide) rfl).1 (by decide)

/-- Claim C10: the paired branch of `backwards` validates only the left
hemisphere's indices — for `a` with `a.length ≠ llen` and `max a < llen`,
the `raise ValueError` branch is not taken, whatever `b` holds, so right
indices ≥ `rlen` are not rejected by the validation (they instead surface
later as a numpy IndexError during assignment). -/
theorem backwards_pair_checks_left_only (llen rlen : ℕ) (a b : List ℕ) (m : ℕ)
    (hlen : a.length ≠ llen) (hmax : npMax a = .ok m) (hm : m < llen) :
    backwardsPair llen rlen a b ≠ .valueError := by
  unfold backwardsPair
  simp only [if_neg hlen, hmax, if_pos hm]
  split <;> simp

/-- Witness for C10: `a = [1]` (length 1 ≠ 2, max 1 < 2) with an
out-of-range right index `b = [5]`, `rlen = 1`: no ValueError. -/
theorem backwards_pair_checks_left_only_witness :
    backwardsPair 2 1 [1] [5] ≠ .valueError :=
  backwards_pair_checks_left_only 2 1 [1] [5] 1 (by decide) rfl (by decide)

/-! ### Lanczos builder (`Lanczos._recache`, mapper.py lines 209-259)

Float results are modelled as `Option ℝ`: `none` stands for a non-finite
value (NaN or Inf), produced here only by division by zero and then
propagated through products, sums and quotients exactly as NaN propagates
in IEEE arithmetic. -/

/-- Product of two float results; a non-finite operand poisons it. -/
noncomputable def omul (a b : Option ℝ) : Option ℝ :=
  a.bind fun x => b.map fun y => x * y

/-- Quotient of two float results; a zero divisor gives a non-finite
result (`±Inf` for a nonzero dividend, `NaN` for zero), and non-finite
operands propagate. -/
noncomputable def odiv (a b : Option ℝ) : Option ℝ :=
  a.bind fun x => b.bind fun y => if y = 0 then none else some (x / y)

/-- Sum of a list of float results; any non-finite summand poisons it. -/
noncomputable def optSum : List (Option ℝ) → Option ℝ
  | [] => some 0
  | a :: l => a.bind fun x => (optSum l).map fun s => x + s

/-- The 1-D kernel closure `lanczos` of `Lanczos._recache` (mapper.py lines
227-232): `out = zeros; sel = abs(x) < window;
out[sel] = sin(π·x)·sin(π·x/window)·(window/(π²·x²))`.  Outside the window
the value is the untouched zero.  Inside the window at `x = 0` the last
factor divides by zero — numpy evaluates `0·0·inf = NaN` — modelled as
`none`. -/
noncomputable def lanczos (window : ℕ) (x : ℝ) : Option ℝ :=
  if |x| < (window : ℝ) then
    if x = 0 then none
    else some (Real.sin (Real.pi * x) * Real.sin (Real.pi * x / window) *
      (window / (Real.pi ^ 2 * x ^ 2)))
  else some 0

/-- Normalized sinc, `sinc(t) = sin(πt)/(πt)` with `sinc(0) = 1`: the
kernel the spec prescribes is `L(d) = sinc(d)·sinc(d/window)` for
`|d| < window`. -/
noncomputable def sinc (t : ℝ) : ℝ :=
  if t = 0 then 1 else Real.sin (Real.pi * t) / (Real.pi * t)

/-- Per-axis nonzero-support tap indices of one vertex:
`ix = np.nonzero(Lx[:, v])[0]` over the kernel evaluated at the distances
from the vertex's coordinate to every integer grid coordinate of the axis.
A NaN entry compares nonzero in numpy, so `none` taps are kept. -/
noncomputable def axisTaps (window n : ℕ) (c : ℝ) : List ℕ :=
  (List.range n).filter fun j => decide (lanczos window (c - j) ≠ some 0)

/-- `itertools.product(iz, iy, ix)`: the tap triples of one vertex. -/
noncomputable def tapTriples (window nX nY nZ : ℕ) (cx cy cz : ℝ) :
    List (ℕ × ℕ × ℕ) :=
  (axisTaps window nZ cz) ×ˢ ((axisTaps window nY cy) ×ˢ (axisTaps window nX cx))

/-- The separable tap weight `vz·vy·vx` of one tap triple
(`np.prod(np.array(list(product(vz, vy, vx))), 1)`). -/
noncomputable def tapVal (window : ℕ) (cx cy cz : ℝ) (t : ℕ × ℕ × ℕ) : Option ℝ :=
  omul (omul (lanczos window (cz - t.1)) (lanczos window (cy - t.2.1)))
    (lanczos window (cx - t.2.2))

/-- One vertex's `(linearIndex, weight)` pairs before renormalization:
`inds = np.ravel_multi_index(product(iz, iy, ix), self.shape)` paired with
`vals`. -/
noncomputable def lanczosTaps (window nX nY nZ : ℕ) (cx cy cz : ℝ) :
    List (ℕ × Option ℝ) :=
  (tapTriples window nX nY nZ cx cy cz).map fun t =>
    (ravel3 nY nX t, tapVal window cx cy cz t)

/-- `vals /= vals.sum()` — the `renorm` branch divides every tap weight of
the vertex by their sum. -/
noncomputable def renormTaps (ps : List (ℕ × Option ℝ)) : List (ℕ × Option ℝ) :=
  ps.map fun p => (p.1, odiv p.2 (optSum (ps.map Prod.snd)))

/-- `mask[v, inds] = vals` on an all-zero `lil_matrix` row: positional
assignments in order, a later assignment overwriting an earlier one at the
same column. -/
noncomputable def assignRow (ps : List (ℕ × Option ℝ)) : ℕ → Option ℝ :=
  ps.foldl (fun f p => Function.update f p.1 p.2) fun _ => some 0

/-- The same row assembly over plain reals (used to reason about rows all
of whose entries are finite). -/
noncomputable def assignRowR (rs : List (ℕ × ℝ)) : ℕ → ℝ :=
  rs.foldl (fun f p => Function.update f p.1 p.2) fun _ => 0

/-- The full operator row of one vertex built with `renorm=True`. -/
noncomputable def lanczosRenormRow (window nX nY nZ : ℕ) (cx cy cz : ℝ) :
    ℕ → Option ℝ :=
  assignRow (renormTaps (lanczosTaps window nX nY nZ cx cy cz))

/-- Sum of a row over the `N` voxel columns. -/
noncomputable def rowSumO (N : ℕ) (row : ℕ → Option ℝ) : Option ℝ :=
  optSum ((List.range N).map row)

/-! ### Helper lemmas: row-major indexing and COO row mass -/

theorem sum_map_range (f : ℕ → ℝ) (N : ℕ) :
    ((List.range N).map f).sum = ∑ j ∈ Finset.range N, f j := by
  induction N with
  | zero => simp
  | succ n ih =>
    rw [List.range_succ, List.map_append, List.sum_append, Finset.sum_range_succ, ih]
    simp

theorem clipIdx_lt (n : ℕ) (hn : 0 < n) (i : ℤ) : clipIdx n i < n := by
  unfold clipIdx
  omega

theorem clipIdx_of_mem (n : ℕ) (i : ℤ) (h0 : 0 ≤ i) (h1 : i < (n : ℤ)) :
    clipIdx n i = i.toNat := by
  unfold clipIdx
  omega

theorem ravel3_lt {nZ nY nX z y x : ℕ} (hz : z < nZ) (hy : y < nY) (hx : x < nX) :
    ravel3 nY nX (z, y, x) < nZ * nY * nX := by
  unfold ravel3
  calc (z * nY + y) * nX + x
      < (z * nY + y) * nX + nX := Nat.add_lt_add_left hx _
    _ = (z * nY + y + 1) * nX := by ring
    _ ≤ nZ * nY * nX := by
        refine mul_le_mul_right' ?_ nX
        calc z * nY + y + 1 = z * nY + (y + 1) := Nat.add_assoc _ _ _
          _ ≤ z * nY + nY := Nat.add_le_add_left hy _
          _ = (z + 1) * nY := (Nat.succ_mul z nY).symm
          _ ≤ nZ * nY := mul_le_mul_right' hz nY

theorem ravelClip_lt (nZ nY nX : ℕ) (hz : 0 < nZ) (hy : 0 < nY) (hx : 0 < nX)
    (z y x : ℤ) : ravelClip nZ nY nX z y x < nZ * nY * nX :=
  ravel3_lt (clipIdx_lt _ hz _) (clipIdx_lt _ hy _) (clipIdx_lt _ hx _)

theorem cooRowVal_nil (j : ℕ) : cooRowVal [] j = 0 := rfl

theorem cooRowVal_cons (p : ℕ × ℝ) (ps : List (ℕ × ℝ)) (j : ℕ) :
    cooRowVal (p :: ps) j = (if p.1 = j then p.2 else 0) + cooRowVal ps j := by
  by_cases h : p.1 = j
  · simp [cooRowVal, List.filter_cons, beq_iff_eq, h]
  · simp [cooRowVal, List.filter_cons, beq_iff_eq, h]

theorem rowMass_eq_weight_sum (N : ℕ) (ps : List (ℕ × ℝ))
    (hb : ∀ p ∈ ps, p.1 < N) : rowMass N ps = (ps.map Prod.snd).sum := by
  induction ps with
  | nil =>
    unfold rowMass
    rw [sum_map_range]
    simp [cooRowVal_nil]
  | cons p ps ih =>
    have hbp : ∀ q ∈ ps, q.1 < N := fun q hq => hb q (List.mem_cons_of_mem _ hq)
    have hm : p.1 ∈ Finset.range N := Finset.mem_range.mpr (hb p (List.mem_cons_self _ _))
    calc rowMass N (p :: ps)
        = ∑ j ∈ Finset.range N, cooRowVal (p :: ps) j := sum_map_range _ _
      _ = ∑ j ∈ Finset.range N, ((if p.1 = j then p.2 else 0) + cooRowVal ps j) :=
          Finset.sum_congr rfl fun j _ => cooRowVal_cons p ps j
      _ = (∑ j ∈ Finset.range N, if p.1 = j then p.2 else 0)
            + ∑ j ∈ Finset.range N, cooRowVal ps j := Finset.sum_add_distrib
      _ = p.2 + rowMass N ps := by
          rw [Finset.sum_ite_eq, if_pos hm, rowMass, sum_map_range]
      _ = ((p :: ps).map Prod.snd).sum := by rw [ih hbp]; simp

theorem triCorners_weight_sum (nZ nY nX : ℕ) (cx cy cz : ℝ) :
    ((triCorners nZ nY nX cx cy cz).map Prod.snd).sum = 1 := by
  simp only [triCorners, List.map_cons, List.map_nil, List.sum_cons, List.sum_nil]
  ring

theorem triCorners_bound (nZ nY nX : ℕ) (hz : 0 < nZ) (hy : 0 < nY) (hx : 0 < nX)
    (cx cy cz : ℝ) : ∀ p ∈ triCorners nZ nY nX cx cy cz, p.1 < nZ * nY * nX := by
  intro p hp
  simp only [triCorners, List.mem_cons, List.not_mem_nil, or_false] at hp
  rcases hp with h | h | h | h | h | h | h | h <;> subst h <;>
    exact ravelClip_lt nZ nY nX hz hy hx _ _ _

/-! ### Theorems: claims C3, C4, C5, C6 -/

/-- Claim C3: the 8 trilinear corner weights sum to exactly 1 before
clipping; after the corner indices are clipped into the grid, duplicate
(vertex, voxel) contributions are summed by the COO assembly, so the total
row mass is ≤ 1, and it equals 1 when the full 8-corner neighborhood lies
inside the grid. -/
theorem trilinear_row_mass (nZ nY nX : ℕ) (cx cy cz : ℝ)
    (hz : 0 < nZ) (hy : 0 < nY) (hx : 0 < nX) :
    ((triCorners nZ nY nX cx cy cz).map Prod.snd).sum = 1 ∧
    rowMass (nZ * nY * nX) (triCorners nZ nY nX cx cy cz) ≤ 1 ∧
    ((0 ≤ trunc cx ∧ trunc cx + 1 < (nX : ℤ) ∧ 0 ≤ trunc cy ∧ trunc cy + 1 < (nY : ℤ) ∧
      0 ≤ trunc cz ∧ trunc cz + 1 < (nZ : ℤ)) →
      rowMass (nZ * nY * nX) (triCorners nZ nY nX cx cy cz) = 1) := by
  have hmass : rowMass (nZ * nY * nX) (triCorners nZ nY nX cx cy cz) = 1 := by
    rw [rowMass_eq_weight_sum _ _ (triCorners_bound nZ nY nX hz hy hx cx cy cz),
        triCorners_weight_sum]
  exact ⟨triCorners_weight_sum nZ nY nX cx cy cz, le_of_eq hmass, fun _ => hmass⟩

/-- Witness for C3: a vertex at coordinate (2,3,4) of a 10×10×10 grid. -/
theorem trilinear_row_mass_witness :
    ((triCorners 10 10 10 2 3 4).map Prod.snd).sum = 1 ∧
    rowMass (10 * 10 * 10) (triCorners 10 10 10 2 3 4) ≤ 1 ∧
    rowMass (10 * 10 * 10) (triCorners 10 10 10 2 3 4) = 1 := by
  obtain ⟨h1, h2, h3⟩ :=
    trilinear_row_mass 10 10 10 2 3 4 (by norm_num) (by norm_num) (by norm_num)
  have ht2 : trunc (2 : ℝ) = 2 := by
    rw [trunc, if_neg (by norm_num), Int.floor_eq_iff]
    norm_num
  have ht3 : trunc (3 : ℝ) = 3 := by
    rw [trunc, if_neg (by norm_num), Int.floor_eq_iff]
    norm_num
  have ht4 : trunc (4 : ℝ) = 4 := by
    rw [trunc, if_neg (by norm_num), Int.floor_eq_iff]
    norm_num
  exact ⟨h1, h2, h3 (by rw [ht2, ht3, ht4]; norm_num)⟩

/-- Claim C4: the operator row of a vertex has a unit entry at column `j`
iff the vertex is referenced, its rounded coordinate lies within grid
bounds on all three axes, and `j` is the row-major linear index of that
rounded coordinate; in every other case the row is zero at `j`. -/
theorem nearest_row_unit_entry (referenced : Bool) (nZ nY nX : ℕ)
    (cx cy cz : ℝ) (j : ℕ) :
    nearestRow referenced nZ nY nX cx cy cz j = true ↔
      (referenced = true ∧
       0 ≤ roundHalfEven cx ∧ roundHalfEven cx < (nX : ℤ) ∧
       0 ≤ roundHalfEven cy ∧ roundHalfEven cy < (nY : ℤ) ∧
       0 ≤ roundHalfEven cz ∧ roundHalfEven cz < (nZ : ℤ) ∧
       j = ((roundHalfEven cz).toNat * nY + (roundHalfEven cy).toNat) * nX
            + (roundHalfEven cx).toNat) := by
  simp only [nearestRow, nearestEntries, List.any_eq_true]
  split
  case isTrue hv =>
    simp only [Bool.and_eq_true, decide_eq_true_eq] at hv
    obtain ⟨⟨⟨hr, hx⟩, hy⟩, hz⟩ := hv
    have hclip : ravelClip nZ nY nX (roundHalfEven cz) (roundHalfEven cy) (roundHalfEven cx)
        = ((roundHalfEven cz).toNat * nY + (roundHalfEven cy).toNat) * nX
            + (roundHalfEven cx).toNat := by
      unfold ravelClip ravel3
      rw [clipIdx_of_mem _ _ hx.1 hx.2, clipIdx_of_mem _ _ hy.1 hy.2,
          clipIdx_of_mem _ _ hz.1 hz.2]
    rw [hclip]
    simp only [List.mem_singleton, beq_iff_eq, exists_eq_left, hr, hx.1, hx.2, hy.1,
      hy.2, hz.1, hz.2, true_and]
    exact eq_comm
  case isFalse hv =>
    constructor
    · rintro ⟨p, hp, -⟩
      exact absurd hp (List.not_mem_nil p)
    · rintro ⟨hr, hx0, hx1, hy0, hy1, hz0, hz1, -⟩
      exact absurd (by simp [hr, hx0, hx1, hy0, hy1, hz0, hz1]) hv

/-- Claim C5 (bug evidence): in the pass-through branch the right slice is
indexed with the LEFT hemisphere's idxmap.  With `idxmap = ([0], [1])`,
`llen = rlen = 2` and data `[1,2,3,4]`, the code returns `([1], [3])`,
whereas indexing the right slice `[3,4]` with the right hemisphere's
idxmap `[1]` gives `[4]`. -/
theorem call_passthrough_idxmap_bug :
    mapperCallPassthrough 2 2 (some ([0], [1])) [1, 2, 3, 4] = some ([1], [3]) ∧
    gather [3, 4] [1] = [4] :=
  ⟨rfl, rfl⟩

/-- Claim C6 (bug evidence): `hemimasks` raises for every operator pair
(`.squeeze` is never called), so `mask` cannot equal the OR of the two
hemimask volumes; independently, with left operator `[[1,0]]` and right
operator `[[-1,0]]` voxel 0 is a nonzero column of both operators yet
`mask` is false there, because the two column sums cancel. -/
theorem mask_hemimask_inconsistency :
    (hemimasksRaises [[(1 : ℝ), 0]] [[-1, 0]]).isOk = false ∧
    maskVec [[(1 : ℝ), 0]] [[-1, 0]] 2 = [false, false] ∧
    colSum [[(1 : ℝ), 0]] 0 ≠ 0 := by
  refine ⟨rfl, ?_, by norm_num [colSum]⟩
  norm_num [maskVec, colSum, List.range_succ]

/-! ### Helper lemmas: Lanczos row assembly -/

theorem optSum_map_some (l : List ℝ) : optSum (l.map some) = some l.sum := by
  induction l with
  | nil => rfl
  | cons a l ih => simp [optSum, ih]

theorem optSum_eq_some {l : List (Option ℝ)} {s : ℝ} (h : optSum l = some s) :
    ∃ m : List ℝ, l = m.map some ∧ m.sum = s := by
  induction l generalizing s with
  | nil =>
    obtain rfl : (0 : ℝ) = s := by simpa [optSum] using h
    exact ⟨[], rfl, rfl⟩
  | cons a l ih =>
    cases a with
    | none => simp [optSum] at h
    | some x =>
      cases hl : optSum l with
      | none => rw [optSum, hl] at h; simp at h
      | some t =>
        rw [optSum, hl] at h
        simp only [Option.some_bind, Option.map_some] at h
        obtain ⟨m, rfl, hm⟩ := ih hl
        refine ⟨x :: m, rfl, ?_⟩
        have hxt : x + t = s := by simpa using h
        simp [hm, hxt]

theorem foldl_update_char {α : Type} (ps : List (ℕ × α)) :
    ∀ (f0 : ℕ → α) (j : ℕ), (ps.map Prod.fst).Nodup →
      ps.foldl (fun f p => Function.update f p.1 p.2) f0 j
        = ((ps.find? fun p => p.1 == j).map Prod.snd).getD (f0 j) := by
  induction ps with
  | nil => intro f0 j _; rfl
  | cons q ps ih =>
    intro f0 j hnd
    rw [List.map_cons, List.nodup_cons] at hnd
    obtain ⟨hq, hnd2⟩ := hnd
    rw [List.foldl_cons, ih _ j hnd2]
    by_cases hj : q.1 = j
    · have hfind : (List.find? (fun p => p.1 == j) (q :: ps)) = some q :=
        List.find?_cons_of_pos _ (by simp [hj])
      have hnone : (List.find? (fun p => p.1 == j) ps) = none :=
        List.find?_eq_none.mpr fun p hp => by
          simp only [beq_iff_eq]
          intro hpj
          exact hq ((hpj.trans hj.symm) ▸ List.mem_map_of_mem Prod.fst hp)
      rw [hfind, hnone]
      simp [Function.update_apply, hj]
    · have hfind : (List.find? (fun p => p.1 == j) (q :: ps))
          = List.find? (fun p => p.1 == j) ps :=
        List.find?_cons_of_neg _ (by simp [hj])
      rw [hfind, Function.update_apply, if_neg fun h => hj h.symm]

theorem foldl_update_map_some (rs : List (ℕ × ℝ)) :
    ∀ f0 : ℕ → ℝ,
      (rs.map fun p => (p.1, some p.2)).foldl (fun f p => Function.update f p.1 p.2)
          (some ∘ f0)
        = some ∘ rs.foldl (fun f p => Function.update f p.1 p.2) f0 := by
  induction rs with
  | nil => intro f0; rfl
  | cons r rs ih =>
    intro f0
    rw [List.map_cons, List.foldl_cons, List.foldl_cons]
    have hstep : Function.update (some ∘ f0) r.1 (some r.2)
        = some ∘ Function.update f0 r.1 r.2 := by
      funext j
      by_cases hj : j = r.1
      · subst hj
        simp
      · simp [Function.update_apply, Function.comp, hj]
    rw [hstep, ih]

theorem assignRow_map_some (rs : List (ℕ × ℝ)) :
    assignRow (rs.map fun p => (p.1, some p.2)) = fun j => some (assignRowR rs j) := by
  unfold assignRow assignRowR
  exact foldl_update_map_some rs fun _ => 0

theorem assignRowR_cons_nodup (r : ℕ × ℝ) (rs : List (ℕ × ℝ))
    (hnd : ((r :: rs).map Prod.fst).Nodup) :
    assignRowR (r :: rs) = Function.update (assignRowR rs) r.1 r.2 := by
  have hnd2 : (rs.map Prod.fst).Nodup := by
    rw [List.map_cons, List.nodup_cons] at hnd
    exact hnd.2
  funext j
  have h1 := foldl_update_char (r :: rs) (fun _ => (0 : ℝ)) j hnd
  have h2 := foldl_update_char rs (fun _ => (0 : ℝ)) j hnd2
  unfold assignRowR
  rw [h1, Function.update_apply]
  by_cases hj : j = r.1
  · rw [if_pos hj, List.find?_cons_of_pos _ (by simp [hj])]
    rfl
  · rw [if_neg hj, List.find?_cons_of_neg _ (by simp [beq_iff_eq]; exact fun h => hj h.symm)]
    exact h2.symm

theorem sum_range_assignRowR (N : ℕ) (rs : List (ℕ × ℝ))
    (hnd : (rs.map Prod.fst).Nodup) (hb : ∀ p ∈ rs, p.1 < N) :
    ((List.range N).map (assignRowR rs)).sum = (rs.map Prod.snd).sum := by
  induction rs with
  | nil =>
    rw [sum_map_range]
    simp [assignRowR]
  | cons r rs ih =>
    have hnd2 : (rs.map Prod.fst).Nodup := by
      rw [List.map_cons, List.nodup_cons] at hnd
      exact hnd.2
    have hr : r.1 ∉ rs.map Prod.fst := by
      rw [List.map_cons, List.nodup_cons] at hnd
      exact hnd.1
    have hzero : assignRowR rs r.1 = 0 := by
      unfold assignRowR
      rw [foldl_update_char rs _ _ hnd2]
      have hnone : List.find? (fun p => p.1 == r.1) rs = none :=
        List.find?_eq_none.mpr fun p hp => by
          simp only [beq_iff_eq]
          intro hpr
          exact hr (hpr ▸ List.mem_map_of_mem Prod.fst hp)
      rw [hnone]
      rfl
    rw [sum_map_range, assignRowR_cons_nodup r rs hnd,
        Finset.sum_update_of_mem (Finset.mem_range.mpr (hb r (List.mem_cons_self r rs))),
        Finset.sdiff_singleton_eq_erase, Finset.sum_erase _ hzero, ← sum_map_range,
        ih hnd2 fun p hp => hb p (List.mem_cons_of_mem r hp)]
    simp

theorem axisTaps_lt (window n : ℕ) (c : ℝ) : ∀ j ∈ axisTaps window n c, j < n :=
  fun j hj => List.mem_range.mp (List.mem_filter.mp hj).1

theorem axisTaps_nodup (window n : ℕ) (c : ℝ) : (axisTaps window n c).Nodup :=
  (List.nodup_range n).filter _

theorem tapTriples_mem {window nX nY nZ : ℕ} {cx cy cz : ℝ} {t : ℕ × ℕ × ℕ}
    (ht : t ∈ tapTriples window nX nY nZ cx cy cz) :
    t.1 < nZ ∧ t.2.1 < nY ∧ t.2.2 < nX := by
  obtain ⟨z, y, x⟩ := t
  unfold tapTriples at ht
  obtain ⟨hz, hyx⟩ := List.mem_product.mp ht
  obtain ⟨hy, hx⟩ := List.mem_product.mp hyx
  exact ⟨axisTaps_lt _ _ _ _ hz, axisTaps_lt _ _ _ _ hy, axisTaps_lt _ _ _ _ hx⟩

theorem tapTriples_nodup (window nX nY nZ : ℕ) (cx cy cz : ℝ) :
    (tapTriples window nX nY nZ cx cy cz).Nodup :=
  (axisTaps_nodup window nZ cz).product
    ((axisTaps_nodup window nY cy).product (axisTaps_nodup window nX cx))

theorem ravel3_inj {nY nX : ℕ} {t u : ℕ × ℕ × ℕ}
    (hty : t.2.1 < nY) (htx : t.2.2 < nX) (huy : u.2.1 < nY) (hux : u.2.2 < nX)
    (h : ravel3 nY nX t = ravel3 nY nX u) : t = u := by
  obtain ⟨z1, y1, x1⟩ := t
  obtain ⟨z2, y2, x2⟩ := u
  simp only at hty htx huy hux
  unfold ravel3 at h
  simp only at h
  have hx : x1 = x2 := by
    have h1 : (x1 + (z1 * nY + y1) * nX) % nX = (x2 + (z2 * nY + y2) * nX) % nX := by
      rw [Nat.add_comm, Nat.add_comm x2]
      exact congrArg (fun v => v % nX) h
    rwa [Nat.add_mul_mod_self_right, Nat.add_mul_mod_self_right,
         Nat.mod_eq_of_lt htx, Nat.mod_eq_of_lt hux] at h1
  subst hx
  have hXpos : 0 < nX := Nat.lt_of_le_of_lt (Nat.zero_le _) htx
  have h2 : z1 * nY + y1 = z2 * nY + y2 :=
    Nat.eq_of_mul_eq_mul_right hXpos (Nat.add_right_cancel h)
  have hy : y1 = y2 := by
    have h3 : (y1 + z1 * nY) % nY = (y2 + z2 * nY) % nY := by
      rw [Nat.add_comm, Nat.add_comm y2]
      exact congrArg (fun v => v % nY) h2
    rwa [Nat.add_mul_mod_self_right, Nat.add_mul_mod_self_right,
         Nat.mod_eq_of_lt hty, Nat.mod_eq_of_lt huy] at h3
  subst hy
  have hYpos : 0 < nY := Nat.lt_of_le_of_lt (Nat.zero_le _) hty
  have hz : z1 = z2 := Nat.eq_of_mul_eq_mul_right hYpos (Nat.add_right_cancel h2)
  subst hz
  rfl

theorem lanczosTaps_map_fst (window nX nY nZ : ℕ) (cx cy cz : ℝ) :
    (lanczosTaps window nX nY nZ cx cy cz).map Prod.fst
      = (tapTriples window nX nY nZ cx cy cz).map (ravel3 nY nX) := by
  unfold lanczosTaps
  rw [List.map_map]
  rfl

theorem lanczosTaps_fst_nodup (window nX nY nZ : ℕ) (cx cy cz : ℝ) :
    ((lanczosTaps window nX nY nZ cx cy cz).map Prod.fst).Nodup := by
  rw [lanczosTaps_map_fst]
  refine List.Nodup.map_on ?_ (tapTriples_nodup window nX nY nZ cx cy cz)
  intro t ht u hu h
  obtain ⟨-, hty, htx⟩ := tapTriples_mem ht
  obtain ⟨-, huy, hux⟩ := tapTriples_mem hu
  exact ravel3_inj hty htx huy hux h

theorem lanczosTaps_fst_lt (window nX nY nZ : ℕ) (cx cy cz : ℝ) :
    ∀ p ∈ lanczosTaps window nX nY nZ cx cy cz, p.1 < nZ * nY * nX := by
  intro p hp
  unfold lanczosTaps at hp
  obtain ⟨t, ht, rfl⟩ := List.mem_map.mp hp
  obtain ⟨hz, hy, hx⟩ := tapTriples_mem ht
  obtain ⟨z, y, x⟩ := t
  exact ravel3_lt hz hy hx

theorem list_sum_map_div (l : List ℝ) (c : ℝ) :
    (l.map fun v => v / c).sum = l.sum / c := by
  induction l with
  | nil => simp
  | cons a l ih => simp [ih, add_div]

/-! ### Theorems: claims C1, C2 -/

/-- Claim C1: with `renorm=True`, for every vertex whose tap-weight sum is
a (finite) nonzero value, dividing all the vertex's tap weights by their
sum makes the assembled operator row sum to exactly 1 — including vertices
near the grid edge whose kernel support is truncated by the grid boundary
(taps exist only at in-grid integer coordinates, and whatever taps remain
are renormalized to total 1). -/
theorem lanczos_renorm_row_sums_to_one (window nX nY nZ : ℕ) (cx cy cz : ℝ)
    (s : ℝ)
    (hs : optSum ((lanczosTaps window nX nY nZ cx cy cz).map Prod.snd) = some s)
    (hs0 : s ≠ 0) :
    rowSumO (nZ * nY * nX) (lanczosRenormRow window nX nY nZ cx cy cz) = some 1 := by
  obtain ⟨vs, hvs, hsum⟩ := optSum_eq_some hs
  set taps := lanczosTaps window nX nY nZ cx cy cz with htaps
  set rs : List (ℕ × ℝ) := taps.map fun p => (p.1, p.2.getD 0 / s) with hrs
  have hmem_some : ∀ p ∈ taps, ∃ v : ℝ, p.2 = some v := by
    intro p hp
    have h1 : p.2 ∈ taps.map Prod.snd := List.mem_map_of_mem Prod.snd hp
    rw [hvs] at h1
    obtain ⟨v, -, hv⟩ := List.mem_map.mp h1
    exact ⟨v, hv.symm⟩
  have hren : renormTaps taps = rs.map fun p => (p.1, some p.2) := by
    unfold renormTaps
    rw [hrs, List.map_map]
    refine List.map_congr_left fun p hp => ?_
    obtain ⟨v, hv⟩ := hmem_some p hp
    rw [hs, hv]
    simp [odiv, Function.comp, hs0, hv]
  have hfst : rs.map Prod.fst = taps.map Prod.fst := by
    rw [hrs, List.map_map]
    rfl
  have hnd : (rs.map Prod.fst).Nodup := by
    rw [hfst, htaps]
    exact lanczosTaps_fst_nodup window nX nY nZ cx cy cz
  have hb : ∀ p ∈ rs, p.1 < nZ * nY * nX := by
    intro p hp
    rw [hrs] at hp
    obtain ⟨q, hq, rfl⟩ := List.mem_map.mp hp
    rw [htaps] at hq
    exact lanczosTaps_fst_lt window nX nY nZ cx cy cz q hq
  have hrow : lanczosRenormRow window nX nY nZ cx cy cz
      = fun j => some (assignRowR rs j) := by
    unfold lanczosRenormRow
    rw [← htaps, hren, assignRow_map_some]
  unfold rowSumO
  rw [hrow]
  have hcomp : (List.range (nZ * nY * nX)).map (fun j => some (assignRowR rs j))
      = ((List.range (nZ * nY * nX)).map (assignRowR rs)).map some := by
    rw [List.map_map]
    rfl
  rw [hcomp, optSum_map_some, sum_range_assignRowR _ _ hnd hb]
  have hsnd : rs.map Prod.snd = vs.map fun v => v / s := by
    calc rs.map Prod.snd
        = (taps.map Prod.snd).map (fun o => o.getD 0 / s) := by
          rw [hrs, List.map_map, List.map_map]
          rfl
      _ = (vs.map some).map (fun o => o.getD 0 / s) := by rw [hvs]
      _ = vs.map fun v => v / s := by
          rw [List.map_map]
          rfl
  rw [hsnd, list_sum_map_div, hsum, div_self hs0]

theorem lanczos_at_half : lanczos 1 ((2 : ℝ)⁻¹) = some (4 / Real.pi ^ 2) := by
  unfold lanczos
  rw [if_pos (by rw [abs_of_pos] <;> norm_num),
      if_neg (by norm_num : ¬(2 : ℝ)⁻¹ = 0)]
  congr 1
  have h1 : Real.pi * (2 : ℝ)⁻¹ = Real.pi / 2 := by ring
  rw [Nat.cast_one, div_one, h1, Real.sin_pi_div_two]
  field_simp
  ring

theorem axisTaps_half : axisTaps 1 1 (1 / 2) = [0] := by
  have h40 : (4 : ℝ) / Real.pi ^ 2 ≠ 0 :=
    div_ne_zero (by norm_num) (pow_ne_zero _ Real.pi_ne_zero)
  unfold axisTaps
  rw [show List.range 1 = [0] from rfl]
  simp [List.filter_cons, lanczos_at_half, h40]

theorem tapTriples_half :
    tapTriples 1 1 1 1 (1 / 2) (1 / 2) (1 / 2) = [(0, 0, 0)] := by
  unfold tapTriples
  rw [axisTaps_half]
  rfl

theorem lanczosTaps_half :
    lanczosTaps 1 1 1 1 (1 / 2) (1 / 2) (1 / 2)
      = [(0, some (4 / Real.pi ^ 2 * (4 / Real.pi ^ 2) * (4 / Real.pi ^ 2)))] := by
  unfold lanczosTaps
  rw [tapTriples_half]
  simp [tapVal, omul, ravel3, lanczos_at_half]

theorem optSum_taps_half :
    optSum ((lanczosTaps 1 1 1 1 (1 / 2) (1 / 2) (1 / 2)).map Prod.snd)
      = some (4 / Real.pi ^ 2 * (4 / Real.pi ^ 2) * (4 / Real.pi ^ 2)) := by
  rw [lanczosTaps_half]
  simp [optSum]

/-- Witness for C1: window 1, 1×1×1 grid, vertex at (1/2, 1/2, 1/2) — an
edge vertex whose kernel support extends beyond the grid boundary; its
single surviving tap is renormalized to 1. -/
theorem lanczos_renorm_row_sums_to_one_witness :
    rowSumO (1 * 1 * 1) (lanczosRenormRow 1 1 1 1 (1 / 2) (1 / 2) (1 / 2)) = some 1 :=
  lanczos_renorm_row_sums_to_one 1 1 1 1 (1 / 2) (1 / 2) (1 / 2)
    (4 / Real.pi ^ 2 * (4 / Real.pi ^ 2) * (4 / Real.pi ^ 2))
    optSum_taps_half
    (by positivity)

/-- Claim C2 (bug evidence): at distance 0 — a vertex whose continuous
coordinate lies exactly on an integer grid coordinate — the kernel
expression divides by zero (`window/(π²·0²)`) and numpy evaluates
`sin(0)·sin(0)·inf = NaN`: the evaluation is undefined, whereas the spec's
kernel `sinc(d)·sinc(d/window)` evaluates to 1 at `d = 0`. -/
theorem lanczos_kernel_nan_at_zero :
    lanczos 3 0 = none ∧ sinc 0 * sinc (0 / 3) = 1 := by
  constructor
  · unfold lanczos
    rw [if_pos (by norm_num), if_pos rfl]
  · norm_num [sinc]

end PyCortex
